import Mathlib

/-!
Verification of the duplicate-entity resolution migration
`904464ea4041_add_pipeline_model_run_unique_constraints.py`.

The migration reads all rows of the `pipeline_run`, `pipeline` and `model`
tables (id, name, workspace_id), renames later duplicates within a
workspace, then reads all rows of `model_version`
(id, name, number, model_id) and resolves duplicate names and version
numbers per model with a two-pass (detect then fix) algorithm, before the
`upgrade` step adds uniqueness constraints and `downgrade` removes them.

The Lean definitions below are a shallow embedding of that Python code:
dictionaries of sets become functions into lists (only membership and max
are ever used), the database update/log side effects become explicit
`updates`/`logs` fields of the result, and Python's `max` over a possibly
empty set becomes an `Option`-valued `listMax` whose `none` branch makes
the whole resolver fail (mirroring the `ValueError` that `max([])` would
raise).
-/

namespace ZenMigration

/-- `id_[:6]` — the first six characters of an id string. -/
def take6 (s : String) : String := s.take 6

/-- A row of one of the simple tables `pipeline_run`, `pipeline`, `model`
as read by the migration: `(id, name, workspace_id)`. -/
structure SimpleRow where
  id : String
  name : String
  workspace_id : String
deriving DecidableEq, Repr

/-- `f"{name}_{id_[:6]}"` — the synthesized replacement name. -/
def synthName (r : SimpleRow) : String := r.name ++ "_" ++ take6 r.id

/-- Add a value to a per-key family of sets
(`existing[key].add(v)` on a `defaultdict(set)`); membership is all the
code ever queries, so a list model is faithful. -/
def addKey {α : Type} (s : String → List α) (k : String) (v : α) : String → List α :=
  fun k2 => if k2 = k then v :: s k2 else s k2

/-- `addKey` at the per-workspace (or per-model) name sets. -/
abbrev addName (s : String → List String) (k v : String) : String → List String :=
  addKey s k v

/-- `addKey` at the per-model number sets. -/
abbrev addNum (s : String → List Int) (k : String) (v : Int) : String → List Int :=
  addKey s k v

/-- The empty `defaultdict(set)` of names. -/
def emptyNames : String → List String := fun _ => []

/-- The empty `defaultdict(set)` of numbers. -/
def emptyNums : String → List Int := fun _ => []

/-- One executed `UPDATE table SET name = ... WHERE id = ...` statement of
the simple-entity resolver. -/
structure SimpleUpdate where
  id : String
  name : String
deriving DecidableEq, Repr

/-- Result of resolving one simple table: the rows as left in the table
(in read order), the update statements executed, and the
`(old name, new name)` pairs passed to `logger.warning`. -/
structure SimpleResult where
  rows : List SimpleRow
  updates : List SimpleUpdate
  logs : List (String × String)
deriving DecidableEq, Repr

/-- The loop body of the simple-entity resolver, recursing over the rows
in read order with the `existing` seen-set accumulator.  A row whose name
is already in its workspace's seen-set is renamed to `synthName` (and the
new name is added to the seen-set); otherwise the original name is added
and the row is untouched. -/
def simpleResolveAux (seen : String → List String) :
    List SimpleRow → SimpleResult
  | [] => ⟨[], [], []⟩
  | r :: rest =>
    if r.name ∈ seen r.workspace_id then
      let n := synthName r
      let res := simpleResolveAux (addName seen r.workspace_id n) rest
      ⟨{ r with name := n } :: res.rows, ⟨r.id, n⟩ :: res.updates,
        (r.name, n) :: res.logs⟩
    else
      let res := simpleResolveAux (addName seen r.workspace_id r.name) rest
      ⟨r :: res.rows, res.updates, res.logs⟩

/-- Resolve one simple table starting from the fresh `defaultdict(set)`. -/
def simpleResolve (rows : List SimpleRow) : SimpleResult :=
  simpleResolveAux emptyNames rows

/-- The `(name, workspace_id)` keys the new uniqueness constraints are
about. -/
def simpleKeys (rows : List SimpleRow) : List (String × String) :=
  rows.map fun r => (r.name, r.workspace_id)

/-- Checker for the documented open issue of the simple resolver: `true`
iff every synthesized name was itself absent from the workspace's seen-set
at the moment it was synthesized (the code does not re-check this). -/
def simpleCleanAux (seen : String → List String) : List SimpleRow → Bool
  | [] => true
  | r :: rest =>
    if r.name ∈ seen r.workspace_id then
      if synthName r ∈ seen r.workspace_id then false
      else simpleCleanAux (addName seen r.workspace_id (synthName r)) rest
    else simpleCleanAux (addName seen r.workspace_id r.name) rest

/-- `simpleCleanAux` from the fresh seen-set. -/
def simpleClean (rows : List SimpleRow) : Bool :=
  simpleCleanAux emptyNames rows

/-- A row of the `model_version` table as read by the migration:
`(id, name, number, model_id)`. -/
structure VersionRow where
  id : String
  name : String
  number : Int
  model_id : String
deriving DecidableEq, Repr

/-- `f"{name}_{id_[:6]}"` for a model version row. -/
def synthVName (r : VersionRow) : String := r.name ++ "_" ++ take6 r.id

/-- Python's `max` over a collection: defined exactly on non-empty lists,
`none` models the `ValueError` raised on an empty one. -/
def listMax : List Int → Option Int
  | [] => none
  | x :: xs => some (xs.foldl max x)

/-- Pass 1 of the model-version resolver: walk the rows in read order,
flag each with `needs_new_name` / `needs_new_number` against the per-model
seen-sets, and add its (original) name and number to the seen-sets
regardless.  Returns the flagged rows together with the final name and
number seen-sets.  The code keeps only the flagged rows in `needs_update`;
we keep every row with its flags, an unflagged row being left untouched by
pass 2. -/
def pass1Aux (sn : String → List String) (sm : String → List Int) :
    List VersionRow →
      List (VersionRow × Bool × Bool) × (String → List String) × (String → List Int)
  | [] => ([], sn, sm)
  | r :: rest =>
    let n1 : Bool := r.name ∈ sn r.model_id
    let n2 : Bool := r.number ∈ sm r.model_id
    let res := pass1Aux (addName sn r.model_id r.name) (addNum sm r.model_id r.number) rest
    ((r, n1, n2) :: res.1, res.2)

/-- One executed `UPDATE model_version SET ... WHERE id = ...`: the
`values` dict may carry a new name and/or a new number. -/
structure VersionUpdate where
  id : String
  name : Option String
  number : Option Int
deriving DecidableEq, Repr

/-- Result of the model-version resolution: rows as left in the table (in
read order), the update statements executed, and the
`(old name, new name)` pairs passed to `logger.warning`. -/
structure VersionResult where
  rows : List VersionRow
  updates : List VersionUpdate
  logs : List (String × String)
deriving DecidableEq, Repr

/-- Pass 2 of the model-version resolver (the `needs_update` fix-up loop),
interleaved with the untouched rows so the resulting table state is
produced positionally; staged rows are met in detection order, exactly as
in the code.  For a staged row, `next_numeric_version` is
`max(existing_numbers[model_id]) + 1` over the current number seen-set
(`none` on an empty set aborts, as `max([])` would).  A numeric-form row
(`str(number) == name`) gets both fields set to the fresh number; otherwise
the name gets the id-suffix only if it collided and the number gets the
fresh value only if it collided (with no log line in the number-only
case). -/
def pass2Aux (sm : String → List Int) :
    List (VersionRow × Bool × Bool) → Option VersionResult
  | [] => some ⟨[], [], []⟩
  | (r, n1, n2) :: rest =>
    if n1 || n2 then
      match listMax (sm r.model_id) with
      | none => none
      | some m =>
        if toString r.number = r.name then
          (pass2Aux (addNum sm r.model_id (m + 1)) rest).map fun res =>
            ⟨{ r with number := m + 1, name := toString (m + 1) } :: res.rows,
              ⟨r.id, some (toString (m + 1)), some (m + 1)⟩ :: res.updates,
              (r.name, toString (m + 1)) :: res.logs⟩
        else
          let newNm : Option String := if n1 then some (synthVName r) else none
          let newNum : Option Int := if n2 then some (m + 1) else none
          let sm2 := if n2 then addNum sm r.model_id (m + 1) else sm
          (pass2Aux sm2 rest).map fun res =>
            ⟨{ r with name := newNm.getD r.name, number := newNum.getD r.number } :: res.rows,
              ⟨r.id, newNm, newNum⟩ :: res.updates,
              (if n1 then [(r.name, synthVName r)] else []) ++ res.logs⟩
    else
      (pass2Aux sm rest).map fun res => ⟨r :: res.rows, res.updates, res.logs⟩

/-- The whole model-version resolution: pass 1 from fresh seen-sets, then
pass 2 starting from the full number seen-set pass 1 built. -/
def versionedResolve (rows : List VersionRow) : Option VersionResult :=
  let p := pass1Aux emptyNames emptyNums rows
  pass2Aux p.2.2 p.1

/-- The `(name, model_id)` keys of the new name uniqueness constraint. -/
def nameKeys (rows : List VersionRow) : List (String × String) :=
  rows.map fun r => (r.name, r.model_id)

/-- The `(number, model_id)` keys of the new number uniqueness
constraint. -/
def numKeys (rows : List VersionRow) : List (Int × String) :=
  rows.map fun r => (r.number, r.model_id)

/-- Checker for the rename-collision gap of pass 2: `true` iff every name
assigned by pass 2 (the numeric rendering of a fresh number, or the
id-suffix form) differs from every original name of its model and from
every name previously assigned by pass 2 for that model.  The code never
performs these checks; the traversal mirrors `pass2Aux` exactly. -/
def vCleanAux (allN : String → List String) (asg : String → List String)
    (sm : String → List Int) : List (VersionRow × Bool × Bool) → Bool
  | [] => true
  | (r, n1, n2) :: rest =>
    if n1 || n2 then
      match listMax (sm r.model_id) with
      | none => false
      | some m =>
        if toString r.number = r.name then
          if toString (m + 1) ∈ allN r.model_id then false
          else if toString (m + 1) ∈ asg r.model_id then false
          else
            vCleanAux allN (addName asg r.model_id (toString (m + 1)))
              (addNum sm r.model_id (m + 1)) rest
        else
          let sm2 := if n2 then addNum sm r.model_id (m + 1) else sm
          if n1 then
            if synthVName r ∈ allN r.model_id then false
            else if synthVName r ∈ asg r.model_id then false
            else vCleanAux allN (addName asg r.model_id (synthVName r)) sm2 rest
          else vCleanAux allN asg sm2 rest
    else vCleanAux allN asg sm rest

/-- `vCleanAux` against the full original-name sets of pass 1, from an
empty assigned-set. -/
def vNamesClean (rows : List VersionRow) : Bool :=
  let p := pass1Aux emptyNames emptyNums rows
  vCleanAux p.2.1 emptyNames p.2.2 p.1

/-- The table rows `resolve_duplicate_entities` reads and rewrites. -/
structure DB where
  pipeline_run : List SimpleRow
  pipeline : List SimpleRow
  model : List SimpleRow
  model_version : List VersionRow
deriving DecidableEq, Repr

/-- `resolve_duplicate_entities`: the simple resolver over `pipeline_run`,
`pipeline` and `model` (in that loop order, each with its own fresh
seen-sets), then the model-version resolution.  Returns the rewritten
tables and the total number of `UPDATE` statements executed. -/
def resolveAll (db : DB) : Option (DB × Nat) :=
  let r1 := simpleResolve db.pipeline_run
  let r2 := simpleResolve db.pipeline
  let r3 := simpleResolve db.model
  (versionedResolve db.model_version).map fun rv =>
    (⟨r1.rows, r2.rows, r3.rows, rv.rows⟩,
      r1.updates.length + r2.updates.length + r3.updates.length + rv.updates.length)

/-- The five uniqueness invariants the migration establishes. -/
abbrev uniqueDB (db : DB) : Prop :=
  (simpleKeys db.pipeline_run).Nodup ∧ (simpleKeys db.pipeline).Nodup ∧
    (simpleKeys db.model).Nodup ∧ (nameKeys db.model_version).Nodup ∧
    (numKeys db.model_version).Nodup

/-- The operations `upgrade`/`downgrade` perform, in program order. -/
inductive MigOp where
  | resolveDuplicates : MigOp
  | addConstraint (table : String) (cname : String) (cols : List String) : MigOp
  | dropConstraint (table : String) (cname : String) : MigOp
deriving DecidableEq, Repr

/-- Whether an operation creates a uniqueness constraint. -/
def MigOp.isAdd : MigOp → Bool
  | .addConstraint _ _ _ => true
  | _ => false

/-- Whether an operation is the duplicate resolution. -/
def MigOp.isResolve : MigOp → Bool
  | .resolveDuplicates => true
  | _ => false

/-- The body of `upgrade()` in program order. -/
def upgradeOps : List MigOp :=
  [.resolveDuplicates,
   .addConstraint "pipeline" "unique_pipeline_name_in_workspace" ["name", "workspace_id"],
   .addConstraint "pipeline_run" "unique_run_name_in_workspace" ["name", "workspace_id"],
   .addConstraint "model" "unique_model_name_in_workspace" ["name", "workspace_id"],
   .addConstraint "model_version" "unique_version_for_model_id" ["name", "model_id"],
   .addConstraint "model_version" "unique_version_number_for_model_id" ["number", "model_id"]]

/-- The body of `downgrade()` in program order. -/
def downgradeOps : List MigOp :=
  [.dropConstraint "model_version" "unique_version_number_for_model_id",
   .dropConstraint "model_version" "unique_version_for_model_id",
   .dropConstraint "model" "unique_model_name_in_workspace",
   .dropConstraint "pipeline_run" "unique_run_name_in_workspace",
   .dropConstraint "pipeline" "unique_pipeline_name_in_workspace"]

/-- The constraints created by a list of operations. -/
def addsOf (ops : List MigOp) : List (String × String × List String) :=
  ops.filterMap fun
    | .addConstraint t c cols => some (t, c, cols)
    | _ => none

/-- The constraints dropped by a list of operations. -/
def dropsOf (ops : List MigOp) : List (String × String) :=
  ops.filterMap fun
    | .dropConstraint t c => some (t, c)
    | _ => none

/-- Database state seen by the migration engine: the table rows plus the
uniqueness constraints currently installed. -/
structure MigState where
  db : DB
  constraints : List (String × String × List String)
deriving DecidableEq, Repr

/-- Effect of one migration operation on the state. -/
def applyOp (st : MigState) : MigOp → Option MigState
  | .resolveDuplicates =>
    (resolveAll st.db).map fun p => { st with db := p.1 }
  | .addConstraint t c cols =>
    some { st with constraints := st.constraints ++ [(t, c, cols)] }
  | .dropConstraint t c =>
    some { st with constraints := st.constraints.filter fun x => !(x.1 = t && x.2.1 = c) }

/-- Run a list of migration operations in order. -/
def runOps (st : MigState) : List MigOp → Option MigState
  | [] => some st
  | o :: rest => (applyOp st o).bind fun st2 => runOps st2 rest

/-- `upgrade()`. -/
def upgrade (st : MigState) : Option MigState := runOps st upgradeOps

/-- `downgrade()`. -/
def downgrade (st : MigState) : Option MigState := runOps st downgradeOps

/-! ## Helper lemmas -/

theorem mem_addKey {α : Type} (s : String → List α) (k : String) (v : α)
    (k2 : String) (x : α) :
    x ∈ addKey s k v k2 ↔ (k2 = k ∧ x = v) ∨ x ∈ s k2 := by
  unfold addKey
  by_cases h : k2 = k <;> simp [h]

theorem mem_addKey_of {α : Type} {s : String → List α} {k2 : String} {x : α}
    (k : String) (v : α) (h : x ∈ s k2) : x ∈ addKey s k v k2 :=
  (mem_addKey s k v k2 x).2 (Or.inr h)

theorem addKey_self {α : Type} (s : String → List α) (k : String) (v : α) :
    v ∈ addKey s k v k :=
  (mem_addKey s k v k v).2 (Or.inl ⟨rfl, rfl⟩)

theorem listMax_isSome_of_mem {l : List Int} {x : Int} (h : x ∈ l) :
    ∃ m, listMax l = some m := by
  cases l with
  | nil => cases h
  | cons a as => exact ⟨as.foldl max a, rfl⟩

theorem le_foldl_max (as : List Int) : ∀ a : Int, a ≤ as.foldl max a := by
  induction as with
  | nil => intro a; exact le_refl a
  | cons b bs ih =>
    intro a
    exact le_trans (le_max_left a b) (ih (max a b))

theorem mem_le_foldl_max (as : List Int) :
    ∀ (a x : Int), x ∈ as → x ≤ as.foldl max a := by
  induction as with
  | nil => intro a x hx; cases hx
  | cons b bs ih =>
    intro a x hx
    rcases List.mem_cons.1 hx with rfl | hx
    · exact le_trans (le_max_right a x) (le_foldl_max bs (max a x))
    · exact ih (max a b) x hx

theorem listMax_ge {l : List Int} {m : Int} (h : listMax l = some m) :
    ∀ x ∈ l, x ≤ m := by
  cases l with
  | nil => cases h
  | cons a as =>
    intro x hx
    cases h
    rcases List.mem_cons.1 hx with rfl | hx
    · exact le_foldl_max as x
    · exact mem_le_foldl_max as a x hx

theorem listMax_not_mem_succ {l : List Int} {m : Int} (h : listMax l = some m) :
    m + 1 ∉ l := fun hmem =>
  absurd (listMax_ge h (m + 1) hmem) (by omega)

/-- Inversion principle for one step of pass 2: a successful run on a
non-empty staged list came from one of the three code paths — untouched
row, numeric-form fix, or custom-name fix. -/
theorem pass2Aux_cons_some {sm : String → List Int} {r : VersionRow} {n1 n2 : Bool}
    {rest : List (VersionRow × Bool × Bool)} {res : VersionResult}
    (h : pass2Aux sm ((r, n1, n2) :: rest) = some res) :
    ((n1 || n2) = false ∧ ∃ res2, pass2Aux sm rest = some res2 ∧
        res = ⟨r :: res2.rows, res2.updates, res2.logs⟩) ∨
    (∃ m res2, (n1 || n2) = true ∧ listMax (sm r.model_id) = some m ∧
      toString r.number = r.name ∧
      pass2Aux (addNum sm r.model_id (m + 1)) rest = some res2 ∧
      res = ⟨{ r with number := m + 1, name := toString (m + 1) } :: res2.rows,
              ⟨r.id, some (toString (m + 1)), some (m + 1)⟩ :: res2.updates,
              (r.name, toString (m + 1)) :: res2.logs⟩) ∨
    (∃ m res2, (n1 || n2) = true ∧ listMax (sm r.model_id) = some m ∧
      ¬ (toString r.number = r.name) ∧
      pass2Aux (if n2 then addNum sm r.model_id (m + 1) else sm) rest = some res2 ∧
      res = ⟨{ r with
                name := ((if n1 then some (synthVName r) else none) : Option String).getD r.name,
                number := ((if n2 then some (m + 1) else none) : Option Int).getD r.number } :: res2.rows,
              ⟨r.id, (if n1 then some (synthVName r) else none),
                (if n2 then some (m + 1) else none)⟩ :: res2.updates,
              (if n1 then [(r.name, synthVName r)] else []) ++ res2.logs⟩) := by
  cases hb : (n1 || n2) with
  | false =>
    rw [pass2Aux, hb] at h
    simp only [Bool.false_eq_true, if_false, Option.map_eq_some'] at h
    obtain ⟨res2, h1, h2⟩ := h
    exact Or.inl ⟨rfl, res2, h1, h2.symm⟩
  | true =>
    rw [pass2Aux, hb] at h
    simp only [if_true] at h
    cases hm : listMax (sm r.model_id) with
    | none => rw [hm] at h; simp at h
    | some m =>
      rw [hm] at h
      simp only [] at h
      by_cases hf : toString r.number = r.name
      · rw [if_pos hf] at h
        rw [Option.map_eq_some'] at h
        obtain ⟨res2, h1, h2⟩ := h
        exact Or.inr (Or.inl ⟨m, res2, rfl, rfl, hf, h1, h2.symm⟩)
      · rw [if_neg hf] at h
        simp only [Option.map_eq_some'] at h
        obtain ⟨res2, h1, h2⟩ := h
        exact Or.inr (Or.inr ⟨m, res2, rfl, rfl, hf, h1, h2.symm⟩)

/-- In the simple resolver every update is accompanied by exactly one log
line carrying the new name. -/
theorem simpleResolveAux_logs_updates (rows : List SimpleRow) :
    ∀ seen, ((simpleResolveAux seen rows).logs.map Prod.snd =
      (simpleResolveAux seen rows).updates.map SimpleUpdate.name) := by
  induction rows with
  | nil => intro seen; simp [simpleResolveAux]
  | cons r rest ih =>
    intro seen
    by_cases h : r.name ∈ seen r.workspace_id
    · simp [simpleResolveAux, h, ih]
    · simp [simpleResolveAux, h, ih]

/-- In pass 2, the log lines are exactly the name components of the
name-assigning updates: no log line for a number-only update. -/
theorem pass2Aux_logs_updates (flagged : List (VersionRow × Bool × Bool)) :
    ∀ sm res, pass2Aux sm flagged = some res →
      res.logs.map Prod.snd = res.updates.filterMap VersionUpdate.name := by
  induction flagged with
  | nil =>
    intro sm res h
    rw [pass2Aux] at h
    cases h
    simp
  | cons f rest ih =>
    obtain ⟨r, n1, n2⟩ := f
    intro sm res h
    rcases pass2Aux_cons_some h with
      ⟨_, res2, h1, rfl⟩ | ⟨m, res2, _, _, _, h1, rfl⟩ | ⟨m, res2, _, _, _, h1, rfl⟩
    · simpa using ih _ _ h1
    · simpa [VersionUpdate.name] using ih _ _ h1
    · cases n1 <;> simp_all [VersionUpdate.name, ih _ _ h1]

theorem simpleKeys_cons (r : SimpleRow) (l : List SimpleRow) :
    simpleKeys (r :: l) = (r.name, r.workspace_id) :: simpleKeys l := rfl

theorem nameKeys_cons (r : VersionRow) (l : List VersionRow) :
    nameKeys (r :: l) = (r.name, r.model_id) :: nameKeys l := rfl

theorem numKeys_cons (r : VersionRow) (l : List VersionRow) :
    numKeys (r :: l) = (r.number, r.model_id) :: numKeys l := rfl

/-- Unfolding the simple resolver at a duplicated row. -/
theorem simpleResolveAux_cons_dup {seen : String → List String} {r : SimpleRow}
    (rest : List SimpleRow) (h : r.name ∈ seen r.workspace_id) :
    simpleResolveAux seen (r :: rest) =
      ⟨{ r with name := synthName r } ::
          (simpleResolveAux (addName seen r.workspace_id (synthName r)) rest).rows,
        ⟨r.id, synthName r⟩ ::
          (simpleResolveAux (addName seen r.workspace_id (synthName r)) rest).updates,
        (r.name, synthName r) ::
          (simpleResolveAux (addName seen r.workspace_id (synthName r)) rest).logs⟩ := by
  rw [simpleResolveAux, if_pos h]

/-- Unfolding the simple resolver at a first-seen row. -/
theorem simpleResolveAux_cons_new {seen : String → List String} {r : SimpleRow}
    (rest : List SimpleRow) (h : r.name ∉ seen r.workspace_id) :
    simpleResolveAux seen (r :: rest) =
      ⟨r :: (simpleResolveAux (addName seen r.workspace_id r.name) rest).rows,
        (simpleResolveAux (addName seen r.workspace_id r.name) rest).updates,
        (simpleResolveAux (addName seen r.workspace_id r.name) rest).logs⟩ := by
  rw [simpleResolveAux, if_neg h]

/-- On a clean run (every synthesized name fresh for its workspace's
seen-set) the resolver's output has pairwise distinct
`(name, workspace_id)` keys; moreover no output name was in the entry
seen-set of its workspace. -/
theorem simpleResolveAux_nodup_of_clean (rows : List SimpleRow) :
    ∀ seen, simpleCleanAux seen rows = true →
      (simpleKeys (simpleResolveAux seen rows).rows).Nodup ∧
      ∀ o ∈ (simpleResolveAux seen rows).rows, o.name ∉ seen o.workspace_id := by
  induction rows with
  | nil => intro seen _; simp [simpleResolveAux, simpleKeys]
  | cons r rest ih =>
    intro seen hclean
    by_cases hr : r.name ∈ seen r.workspace_id
    · rw [simpleCleanAux, if_pos hr] at hclean
      have hfresh : synthName r ∉ seen r.workspace_id := by
        by_contra hc
        rw [if_pos hc] at hclean
        exact Bool.false_ne_true hclean
      rw [if_neg hfresh] at hclean
      obtain ⟨ihnd, ihmem⟩ := ih (addName seen r.workspace_id (synthName r)) hclean
      rw [simpleResolveAux_cons_dup rest hr]
      constructor
      · rw [simpleKeys_cons]
        refine List.nodup_cons.2 ⟨?_, ihnd⟩
        intro hmem
        obtain ⟨o, ho, hkey⟩ := List.mem_map.1 hmem
        obtain ⟨hkn, hkw⟩ := Prod.mk.injEq .. ▸ hkey
        apply ihmem o ho
        rw [hkn, hkw]
        exact addKey_self seen r.workspace_id (synthName r)
      · intro o ho
        rcases List.mem_cons.1 ho with rfl | ho2
        · exact hfresh
        · exact fun hc => ihmem o ho2 (mem_addKey_of _ _ hc)
    · rw [simpleCleanAux, if_neg hr] at hclean
      obtain ⟨ihnd, ihmem⟩ := ih (addName seen r.workspace_id r.name) hclean
      rw [simpleResolveAux_cons_new rest hr]
      constructor
      · rw [simpleKeys_cons]
        refine List.nodup_cons.2 ⟨?_, ihnd⟩
        intro hmem
        obtain ⟨o, ho, hkey⟩ := List.mem_map.1 hmem
        obtain ⟨hkn, hkw⟩ := Prod.mk.injEq .. ▸ hkey
        apply ihmem o ho
        rw [hkn, hkw]
        exact addKey_self seen r.workspace_id r.name
      · intro o ho
        rcases List.mem_cons.1 ho with rfl | ho2
        · exact hr
        · exact fun hc => ihmem o ho2 (mem_addKey_of _ _ hc)

/-- A row preceded only by rows with different `(name, workspace_id)`
keys, whose name moreover never occurs among the names synthesized by the
whole run, is emitted unchanged at its own position. -/
theorem simpleResolveAux_first_seen (pre : List SimpleRow) :
    ∀ (r : SimpleRow) (post : List SimpleRow) (seen : String → List String),
      r.name ∉ seen r.workspace_id →
      (∀ p ∈ pre, ¬(p.name = r.name ∧ p.workspace_id = r.workspace_id)) →
      r.name ∉ (simpleResolveAux seen (pre ++ r :: post)).updates.map SimpleUpdate.name →
      (simpleResolveAux seen (pre ++ r :: post)).rows.get? pre.length = some r := by
  induction pre with
  | nil =>
    intro r post seen hr _ _
    rw [List.nil_append, simpleResolveAux_cons_new post hr]
    rfl
  | cons p pre2 ih =>
    intro r post seen hr hpre hsyn
    by_cases hp : p.name ∈ seen p.workspace_id
    · rw [List.cons_append, simpleResolveAux_cons_dup (pre2 ++ r :: post) hp] at hsyn ⊢
      simp only [List.map_cons, List.mem_cons, not_or] at hsyn
      have hr2 : r.name ∉ addName seen p.workspace_id (synthName p) r.workspace_id := by
        intro hc
        rcases (mem_addKey seen p.workspace_id (synthName p) r.workspace_id r.name).1 hc with
          ⟨_, hval⟩ | hmem2
        · exact hsyn.1 hval
        · exact hr hmem2
      rw [List.length_cons, List.get?_cons_succ]
      exact ih r post _ hr2 (fun q hq => hpre q (List.mem_cons_of_mem p hq)) hsyn.2
    · rw [List.cons_append, simpleResolveAux_cons_new (pre2 ++ r :: post) hp] at hsyn ⊢
      have hr2 : r.name ∉ addName seen p.workspace_id p.name r.workspace_id := by
        intro hc
        rcases (mem_addKey seen p.workspace_id p.name r.workspace_id r.name).1 hc with
          ⟨hw, hval⟩ | hmem2
        · exact hpre p (List.mem_cons_self p pre2) ⟨hval.symm, hw.symm⟩
        · exact hr hmem2
      rw [List.length_cons, List.get?_cons_succ]
      exact ih r post _ hr2 (fun q hq => hpre q (List.mem_cons_of_mem p hq)) hsyn

/-- On a table already free of `(name, workspace_id)` duplicates the
simple resolver touches nothing. -/
theorem simpleResolveAux_noop (rows : List SimpleRow) :
    ∀ seen, (∀ r ∈ rows, r.name ∉ seen r.workspace_id) → (simpleKeys rows).Nodup →
      simpleResolveAux seen rows = ⟨rows, [], []⟩ := by
  induction rows with
  | nil => intro seen _ _; rfl
  | cons r rest ih =>
    intro seen hseen hnd
    have hr : r.name ∉ seen r.workspace_id := hseen r (List.mem_cons_self r rest)
    have hnd2 : ((r.name, r.workspace_id) ∉ simpleKeys rest) ∧ (simpleKeys rest).Nodup := by
      simpa [simpleKeys] using hnd
    have hrest : ∀ x ∈ rest, x.name ∉ addName seen r.workspace_id r.name x.workspace_id := by
      intro x hx hmem
      rcases (mem_addKey seen r.workspace_id r.name x.workspace_id x.name).1 hmem with
        ⟨hw, hn⟩ | hmem2
      · exact hnd2.1 (by
          have : (x.name, x.workspace_id) ∈ simpleKeys rest :=
            List.mem_map_of_mem (fun r => (r.name, r.workspace_id)) hx
          rwa [hn, hw] at this)
      · exact hseen x (List.mem_cons_of_mem r hx) hmem2
    rw [simpleResolveAux, if_neg hr, ih _ hrest hnd2.2]

/-- On a table already free of name and number duplicates, pass 1 flags
nothing. -/
theorem pass1Aux_all_false (rows : List VersionRow) :
    ∀ sn sm, (∀ r ∈ rows, r.name ∉ sn r.model_id) →
      (∀ r ∈ rows, r.number ∉ sm r.model_id) →
      (nameKeys rows).Nodup → (numKeys rows).Nodup →
      (pass1Aux sn sm rows).1 = rows.map fun r => (r, false, false) := by
  induction rows with
  | nil => intro sn sm _ _ _ _; rfl
  | cons r rest ih =>
    intro sn sm hn hm hnd1 hnd2
    have h1 : r.name ∉ sn r.model_id := hn r (List.mem_cons_self r rest)
    have h2 : r.number ∉ sm r.model_id := hm r (List.mem_cons_self r rest)
    have hnd1c : ((r.name, r.model_id) ∉ nameKeys rest) ∧ (nameKeys rest).Nodup := by
      simpa [nameKeys] using hnd1
    have hnd2c : ((r.number, r.model_id) ∉ numKeys rest) ∧ (numKeys rest).Nodup := by
      simpa [numKeys] using hnd2
    have hn2 : ∀ x ∈ rest, x.name ∉ addName sn r.model_id r.name x.model_id := by
      intro x hx hmem
      rcases (mem_addKey sn r.model_id r.name x.model_id x.name).1 hmem with ⟨hw, hval⟩ | hmem2
      · exact hnd1c.1 (by
          have : (x.name, x.model_id) ∈ nameKeys rest :=
            List.mem_map_of_mem (fun r => (r.name, r.model_id)) hx
          rwa [hval, hw] at this)
      · exact hn x (List.mem_cons_of_mem r hx) hmem2
    have hm2 : ∀ x ∈ rest, x.number ∉ addNum sm r.model_id r.number x.model_id := by
      intro x hx hmem
      rcases (mem_addKey sm r.model_id r.number x.model_id x.number).1 hmem with
        ⟨hw, hval⟩ | hmem2
      · exact hnd2c.1 (by
          have : (x.number, x.model_id) ∈ numKeys rest :=
            List.mem_map_of_mem (fun r => (r.number, r.model_id)) hx
          rwa [hval, hw] at this)
      · exact hm x (List.mem_cons_of_mem r hx) hmem2
    simp only [pass1Aux, List.map_cons]
    rw [ih _ _ hn2 hm2 hnd1c.2 hnd2c.2]
    simp [h1, h2]

/-- Pass 2 leaves a completely unflagged list of rows untouched, with no
updates and no logs. -/
theorem pass2Aux_unflagged (rows : List VersionRow) :
    ∀ sm, pass2Aux sm (rows.map fun r => (r, false, false)) = some ⟨rows, [], []⟩ := by
  induction rows with
  | nil => intro sm; rfl
  | cons r rest ih =>
    intro sm
    rw [List.map_cons, pass2Aux]
    simp [ih sm]

/-- On a table already satisfying both uniqueness invariants the whole
model-version resolution is the identity with no updates. -/
theorem versionedResolve_noop (rows : List VersionRow)
    (h1 : (nameKeys rows).Nodup) (h2 : (numKeys rows).Nodup) :
    versionedResolve rows = some ⟨rows, [], []⟩ := by
  simp only [versionedResolve]
  rw [pass1Aux_all_false rows emptyNames emptyNums
    (by intro r _; simp [emptyNames]) (by intro r _; simp [emptyNums]) h1 h2]
  exact pass2Aux_unflagged rows _

/-- The flagged list of pass 1 carries exactly the input rows, in
order. -/
theorem pass1Aux_fst (rows : List VersionRow) :
    ∀ sn sm, ((pass1Aux sn sm rows).1.map Prod.fst) = rows := by
  induction rows with
  | nil => intro sn sm; rfl
  | cons r rest ih => intro sn sm; simp [pass1Aux, ih]

/-- Pass 1 only ever adds to the number seen-sets. -/
theorem pass1Aux_nums_mono (rows : List VersionRow) :
    ∀ sn sm k x, x ∈ sm k → x ∈ (pass1Aux sn sm rows).2.2 k := by
  induction rows with
  | nil => intro sn sm k x h; exact h
  | cons r rest ih =>
    intro sn sm k x h
    exact ih _ _ k x (mem_addKey_of r.model_id r.number h)

/-- Pass 1 only ever adds to the name seen-sets. -/
theorem pass1Aux_names_mono (rows : List VersionRow) :
    ∀ sn sm k x, x ∈ sn k → x ∈ (pass1Aux sn sm rows).2.1 k := by
  induction rows with
  | nil => intro sn sm k x h; exact h
  | cons r rest ih =>
    intro sn sm k x h
    exact ih _ _ k x (mem_addKey_of r.model_id r.name h)

/-- After pass 1 the number seen-set of a model contains the original
number of every row of that model. -/
theorem pass1Aux_nums_all (rows : List VersionRow) :
    ∀ sn sm, ∀ r ∈ rows, r.number ∈ (pass1Aux sn sm rows).2.2 r.model_id := by
  induction rows with
  | nil => intro sn sm r h; cases h
  | cons q rest ih =>
    intro sn sm r hr
    rcases List.mem_cons.1 hr with rfl | hr2
    · exact pass1Aux_nums_mono rest _ _ _ _ (addKey_self sm r.model_id r.number)
    · exact ih _ _ r hr2

/-- After pass 1 the name seen-set of a model contains the original name
of every row of that model. -/
theorem pass1Aux_names_all (rows : List VersionRow) :
    ∀ sn sm, ∀ r ∈ rows, r.name ∈ (pass1Aux sn sm rows).2.1 r.model_id := by
  induction rows with
  | nil => intro sn sm r h; cases h
  | cons q rest ih =>
    intro sn sm r hr
    rcases List.mem_cons.1 hr with rfl | hr2
    · exact pass1Aux_names_mono rest _ _ _ _ (addKey_self sn r.model_id r.name)
    · exact ih _ _ r hr2

theorem forall₂_mem_right {α β : Type} {R : α → β → Prop} {l1 : List α} {l2 : List β}
    (h : List.Forall₂ R l1 l2) : ∀ b ∈ l2, ∃ a ∈ l1, R a b := by
  induction h with
  | nil => intro b hb; cases hb
  | cons hR _ ih =>
    intro b hb
    rcases List.mem_cons.1 hb with rfl | hb2
    · exact ⟨_, List.mem_cons_self _ _, hR⟩
    · obtain ⟨a, ha, hRa⟩ := ih b hb2
      exact ⟨a, List.mem_cons_of_mem _ ha, hRa⟩

/-- A cleared `needs_new_number` flag means: the row's number is absent
from the initial number seen-set and differs from the number of every
earlier row of the same model. -/
theorem pass1Aux_flag_num (rows : List VersionRow) :
    ∀ sn sm pre f suf, (pass1Aux sn sm rows).1 = pre ++ f :: suf → f.2.2 = false →
      f.1.number ∉ sm f.1.model_id ∧
      ∀ p ∈ pre, p.1.model_id = f.1.model_id → p.1.number ≠ f.1.number := by
  induction rows with
  | nil =>
    intro sn sm pre f suf h _
    cases pre with
    | nil => rw [List.nil_append] at h; exact List.noConfusion h
    | cons q pre2 => rw [List.cons_append] at h; exact List.noConfusion h
  | cons r rest ih =>
    intro sn sm pre f suf h hflag
    have hunf : (pass1Aux sn sm (r :: rest)).1 =
        (r, decide (r.name ∈ sn r.model_id), decide (r.number ∈ sm r.model_id)) ::
          (pass1Aux (addName sn r.model_id r.name)
            (addNum sm r.model_id r.number) rest).1 := rfl
    rw [hunf] at h
    cases pre with
    | nil =>
      rw [List.nil_append] at h
      injection h with h1 h2
      subst h1
      refine ⟨?_, fun p hp => absurd hp (List.not_mem_nil p)⟩
      exact of_decide_eq_false hflag
    | cons q pre2 =>
      rw [List.cons_append] at h
      injection h with h1 h2
      obtain ⟨hnot2, hpre2⟩ := ih _ _ pre2 f suf h2 hflag
      have hnot : f.1.number ∉ sm f.1.model_id :=
        fun hc => hnot2 (mem_addKey_of _ _ hc)
      refine ⟨hnot, fun p hp hg => ?_⟩
      rcases List.mem_cons.1 hp with rfl | hp2
      · subst h1
        intro he
        exact hnot2 ((mem_addKey sm r.model_id r.number f.1.model_id f.1.number).2
          (Or.inl ⟨hg.symm, he.symm⟩))
      · exact hpre2 p hp2 hg

/-- A cleared `needs_new_name` flag means: the row's name is absent from
the initial name seen-set and differs from the name of every earlier row
of the same model. -/
theorem pass1Aux_flag_name (rows : List VersionRow) :
    ∀ sn sm pre f suf, (pass1Aux sn sm rows).1 = pre ++ f :: suf → f.2.1 = false →
      f.1.name ∉ sn f.1.model_id ∧
      ∀ p ∈ pre, p.1.model_id = f.1.model_id → p.1.name ≠ f.1.name := by
  induction rows with
  | nil =>
    intro sn sm pre f suf h _
    cases pre with
    | nil => rw [List.nil_append] at h; exact List.noConfusion h
    | cons q pre2 => rw [List.cons_append] at h; exact List.noConfusion h
  | cons r rest ih =>
    intro sn sm pre f suf h hflag
    have hunf : (pass1Aux sn sm (r :: rest)).1 =
        (r, decide (r.name ∈ sn r.model_id), decide (r.number ∈ sm r.model_id)) ::
          (pass1Aux (addName sn r.model_id r.name)
            (addNum sm r.model_id r.number) rest).1 := rfl
    rw [hunf] at h
    cases pre with
    | nil =>
      rw [List.nil_append] at h
      injection h with h1 h2
      subst h1
      refine ⟨?_, fun p hp => absurd hp (List.not_mem_nil p)⟩
      exact of_decide_eq_false hflag
    | cons q pre2 =>
      rw [List.cons_append] at h
      injection h with h1 h2
      obtain ⟨hnot2, hpre2⟩ := ih _ _ pre2 f suf h2 hflag
      have hnot : f.1.name ∉ sn f.1.model_id :=
        fun hc => hnot2 (mem_addKey_of _ _ hc)
      refine ⟨hnot, fun p hp hg => ?_⟩
      rcases List.mem_cons.1 hp with rfl | hp2
      · subst h1
        intro he
        exact hnot2 ((mem_addKey sn r.model_id r.name f.1.model_id f.1.name).2
          (Or.inl ⟨hg.symm, he.symm⟩))
      · exact hpre2 p hp2 hg

/-- Pass 2 cannot fail as long as each staged row's own number is in its
model's seen-number set: the `max` is then always over a non-empty set. -/
theorem pass2Aux_isSome (flagged : List (VersionRow × Bool × Bool)) :
    ∀ sm, (∀ f ∈ flagged, f.1.number ∈ sm f.1.model_id) →
      (pass2Aux sm flagged).isSome = true := by
  induction flagged with
  | nil => intro sm _; rfl
  | cons f rest ih =>
    obtain ⟨r, n1, n2⟩ := f
    intro sm hall
    have hrnum : r.number ∈ sm r.model_id := hall (r, n1, n2) (List.mem_cons_self _ _)
    obtain ⟨m, hm⟩ := listMax_isSome_of_mem hrnum
    have htail : ∀ f ∈ rest, f.1.number ∈ sm f.1.model_id :=
      fun f hf => hall f (List.mem_cons_of_mem _ hf)
    cases hb : (n1 || n2) with
    | false =>
      obtain ⟨res, hres⟩ := Option.isSome_iff_exists.1 (ih sm htail)
      simp [pass2Aux, hb, hres]
    | true =>
      by_cases hf2 : toString r.number = r.name
      · have htail2 : ∀ f ∈ rest, f.1.number ∈ addNum sm r.model_id (m + 1) f.1.model_id :=
          fun f hf => mem_addKey_of _ _ (htail f hf)
        obtain ⟨res, hres⟩ := Option.isSome_iff_exists.1 (ih _ htail2)
        simp [pass2Aux, hb, hm, hf2, hres]
      · have htail2 : ∀ f ∈ rest,
            f.1.number ∈ (if n2 then addNum sm r.model_id (m + 1) else sm) f.1.model_id := by
          cases n2 <;> simp only [if_true, if_false, Bool.false_eq_true]
          · exact htail
          · exact fun f hf => mem_addKey_of _ _ (htail f hf)
        obtain ⟨res, hres⟩ := Option.isSome_iff_exists.1 (ih _ htail2)
        simp [pass2Aux, hb, hm, hf2, hres]

/-- Main invariant of pass 2 for numbers: given that every flagged row's
number is in its model's seen-set and that a cleared `needs_new_number`
flag certifies no earlier same-model duplicate, the emitted rows have
pairwise distinct `(number, model_id)` keys; moreover each emitted row
keeps its model, and either keeps its number (with cleared flag) or gets a
number outside the entry seen-set. -/
theorem pass2Aux_numkeys_nodup (flagged : List (VersionRow × Bool × Bool)) :
    ∀ sm res,
      (∀ f ∈ flagged, f.1.number ∈ sm f.1.model_id) →
      (∀ pre f suf, flagged = pre ++ f :: suf → f.2.2 = false →
        ∀ p ∈ pre, p.1.model_id = f.1.model_id → p.1.number ≠ f.1.number) →
      pass2Aux sm flagged = some res →
      (numKeys res.rows).Nodup ∧
      List.Forall₂ (fun f o => o.model_id = f.1.model_id ∧
        ((f.2.2 = false ∧ o.number = f.1.number) ∨ o.number ∉ sm f.1.model_id))
        flagged res.rows := by
  induction flagged with
  | nil =>
    intro sm res _ _ h
    rw [pass2Aux] at h
    cases h
    exact ⟨by simp [numKeys], List.Forall₂.nil⟩
  | cons f0 rest ih =>
    obtain ⟨r, n1, n2⟩ := f0
    intro sm res hall hflags hrun
    have hallHead : r.number ∈ sm r.model_id := hall (r, n1, n2) (List.mem_cons_self _ _)
    have hallTail : ∀ f ∈ rest, f.1.number ∈ sm f.1.model_id :=
      fun f hf => hall f (List.mem_cons_of_mem _ hf)
    have hflagsTail : ∀ pre f suf, rest = pre ++ f :: suf → f.2.2 = false →
        ∀ p ∈ pre, p.1.model_id = f.1.model_id → p.1.number ≠ f.1.number := by
      intro pre f suf hsplit hfl p hp
      exact hflags ((r, n1, n2) :: pre) f suf (by rw [hsplit, List.cons_append]) hfl p
        (List.mem_cons_of_mem _ hp)
    have hheadNe : ∀ f ∈ rest, f.2.2 = false → f.1.model_id = r.model_id →
        f.1.number ≠ r.number := by
      intro f hf hfl hg
      obtain ⟨pre2, suf2, hsplit⟩ := List.append_of_mem hf
      have hne := hflags ((r, n1, n2) :: pre2) f suf2 (by rw [hsplit, List.cons_append]) hfl
        (r, n1, n2) (List.mem_cons_self _ _) hg.symm
      exact fun he => hne he.symm
    rcases pass2Aux_cons_some hrun with
      ⟨hb, res2, hrest, rfl⟩ | ⟨m, res2, hb, hm, hnum, hrest, rfl⟩ |
      ⟨m, res2, hb, hm, hnum, hrest, rfl⟩
    · -- untouched row
      have hn2 : n2 = false := (Bool.or_eq_false_iff.1 hb).2
      subst hn2
      obtain ⟨nd2, fa2⟩ := ih sm res2 hallTail hflagsTail hrest
      constructor
      · show (numKeys (r :: res2.rows)).Nodup
        rw [numKeys_cons]
        refine List.nodup_cons.2 ⟨?_, nd2⟩
        intro hmem
        obtain ⟨o, ho, hkey⟩ := List.mem_map.1 hmem
        have hkn : o.number = r.number := congrArg Prod.fst hkey
        have hkw : o.model_id = r.model_id := congrArg Prod.snd hkey
        obtain ⟨fo, hfo, hog, hcase⟩ := forall₂_mem_right fa2 o ho
        rcases hcase with ⟨hfl, hnum_eq⟩ | hnot
        · exact hheadNe fo hfo hfl (hog.symm.trans hkw) (hnum_eq.symm.trans hkn)
        · exact hnot (by rw [hkn, hog.symm.trans hkw]; exact hallHead)
      · exact List.Forall₂.cons ⟨rfl, Or.inl ⟨rfl, rfl⟩⟩ fa2
    · -- numeric-form fix: number becomes m + 1
      have hfresh : m + 1 ∉ sm r.model_id := listMax_not_mem_succ hm
      have hallTail2 : ∀ f ∈ rest, f.1.number ∈ addNum sm r.model_id (m + 1) f.1.model_id :=
        fun f hf => mem_addKey_of _ _ (hallTail f hf)
      obtain ⟨nd2, fa2⟩ := ih (addNum sm r.model_id (m + 1)) res2 hallTail2 hflagsTail hrest
      constructor
      · show (numKeys ({ r with number := m + 1, name := toString (m + 1) } :: res2.rows)).Nodup
        rw [numKeys_cons]
        refine List.nodup_cons.2 ⟨?_, nd2⟩
        show ((m + 1 : Int), r.model_id) ∉ numKeys res2.rows
        intro hmem
        obtain ⟨o, ho, hkey⟩ := List.mem_map.1 hmem
        have hkn : o.number = m + 1 := congrArg Prod.fst hkey
        have hkw : o.model_id = r.model_id := congrArg Prod.snd hkey
        obtain ⟨fo, hfo, hog, hcase⟩ := forall₂_mem_right fa2 o ho
        rcases hcase with ⟨_, hnum_eq⟩ | hnot
        · apply hfresh
          rw [← hkn, hnum_eq]
          have := hallTail fo hfo
          rwa [← hog, hkw] at this
        · apply hnot
          rw [hkn, hog.symm.trans hkw]
          exact addKey_self sm r.model_id (m + 1)
      · refine List.Forall₂.cons ⟨rfl, Or.inr hfresh⟩ ?_
        refine fa2.imp ?_
        intro f o hP
        refine ⟨hP.1, ?_⟩
        rcases hP.2 with hkeep | hnot
        · exact Or.inl hkeep
        · exact Or.inr fun hc => hnot (mem_addKey_of _ _ hc)
    · -- custom-name fix
      cases n2 with
      | false =>
        -- number kept (name-only collision)
        simp only [if_false, Bool.false_eq_true] at hrest
        obtain ⟨nd2, fa2⟩ := ih sm res2 hallTail hflagsTail hrest
        constructor
        · show (numKeys ({ r with
              name := ((if n1 then some (synthVName r) else none) : Option String).getD r.name,
              number := ((none : Option Int)).getD r.number } :: res2.rows)).Nodup
          rw [numKeys_cons]
          refine List.nodup_cons.2 ⟨?_, nd2⟩
          show (r.number, r.model_id) ∉ numKeys res2.rows
          intro hmem
          obtain ⟨o, ho, hkey⟩ := List.mem_map.1 hmem
          have hkn : o.number = r.number := congrArg Prod.fst hkey
          have hkw : o.model_id = r.model_id := congrArg Prod.snd hkey
          obtain ⟨fo, hfo, hog, hcase⟩ := forall₂_mem_right fa2 o ho
          rcases hcase with ⟨hfl, hnum_eq⟩ | hnot
          · exact hheadNe fo hfo hfl (hog.symm.trans hkw) (hnum_eq.symm.trans hkn)
          · exact hnot (by rw [hkn, hog.symm.trans hkw]; exact hallHead)
        · exact List.Forall₂.cons ⟨rfl, Or.inl ⟨rfl, rfl⟩⟩ fa2
      | true =>
        -- number reassigned to m + 1
        have hfresh : m + 1 ∉ sm r.model_id := listMax_not_mem_succ hm
        simp only [if_true] at hrest
        have hallTail2 : ∀ f ∈ rest, f.1.number ∈ addNum sm r.model_id (m + 1) f.1.model_id :=
          fun f hf => mem_addKey_of _ _ (hallTail f hf)
        obtain ⟨nd2, fa2⟩ := ih (addNum sm r.model_id (m + 1)) res2 hallTail2 hflagsTail hrest
        constructor
        · show (numKeys ({ r with
              name := ((if n1 then some (synthVName r) else none) : Option String).getD r.name,
              number := ((some (m + 1) : Option Int)).getD r.number } :: res2.rows)).Nodup
          rw [numKeys_cons]
          refine List.nodup_cons.2 ⟨?_, nd2⟩
          show ((m + 1 : Int), r.model_id) ∉ numKeys res2.rows
          intro hmem
          obtain ⟨o, ho, hkey⟩ := List.mem_map.1 hmem
          have hkn : o.number = m + 1 := congrArg Prod.fst hkey
          have hkw : o.model_id = r.model_id := congrArg Prod.snd hkey
          obtain ⟨fo, hfo, hog, hcase⟩ := forall₂_mem_right fa2 o ho
          rcases hcase with ⟨_, hnum_eq⟩ | hnot
          · apply hfresh
            rw [← hkn, hnum_eq]
            have := hallTail fo hfo
            rwa [← hog, hkw] at this
          · apply hnot
            rw [hkn, hog.symm.trans hkw]
            exact addKey_self sm r.model_id (m + 1)
        · refine List.Forall₂.cons ⟨rfl, Or.inr hfresh⟩ ?_
          refine fa2.imp ?_
          intro f o hP
          refine ⟨hP.1, ?_⟩
          rcases hP.2 with hkeep | hnot
          · exact Or.inl hkeep
          · exact Or.inr fun hc => hnot (mem_addKey_of _ _ hc)

/-- Main invariant of pass 2 for names on a clean run: given that every
flagged row's original name is in its model's full original-name set, that
a cleared `needs_new_name` flag certifies no earlier same-model duplicate,
and that every name pass 2 assigns passes the freshness checks of
`vCleanAux`, the emitted rows have pairwise distinct `(name, model_id)`
keys; moreover each emitted row keeps its model, and either keeps its name
(with cleared flag) or gets a name outside both the original-name set and
the entry assigned-set. -/
theorem pass2Aux_namekeys_nodup (flagged : List (VersionRow × Bool × Bool)) :
    ∀ allN asg sm res,
      (∀ f ∈ flagged, f.1.name ∈ allN f.1.model_id) →
      (∀ pre f suf, flagged = pre ++ f :: suf → f.2.1 = false →
        ∀ p ∈ pre, p.1.model_id = f.1.model_id → p.1.name ≠ f.1.name) →
      vCleanAux allN asg sm flagged = true →
      pass2Aux sm flagged = some res →
      (nameKeys res.rows).Nodup ∧
      List.Forall₂ (fun f o => o.model_id = f.1.model_id ∧
        ((f.2.1 = false ∧ o.name = f.1.name) ∨
          (o.name ∉ allN f.1.model_id ∧ o.name ∉ asg f.1.model_id)))
        flagged res.rows := by
  induction flagged with
  | nil =>
    intro allN asg sm res _ _ _ h
    rw [pass2Aux] at h
    cases h
    exact ⟨by simp [nameKeys], List.Forall₂.nil⟩
  | cons f0 rest ih =>
    obtain ⟨r, n1, n2⟩ := f0
    intro allN asg sm res hall hflags hclean hrun
    have hallHead : r.name ∈ allN r.model_id := hall (r, n1, n2) (List.mem_cons_self _ _)
    have hallTail : ∀ f ∈ rest, f.1.name ∈ allN f.1.model_id :=
      fun f hf => hall f (List.mem_cons_of_mem _ hf)
    have hflagsTail : ∀ pre f suf, rest = pre ++ f :: suf → f.2.1 = false →
        ∀ p ∈ pre, p.1.model_id = f.1.model_id → p.1.name ≠ f.1.name := by
      intro pre f suf hsplit hfl p hp
      exact hflags ((r, n1, n2) :: pre) f suf (by rw [hsplit, List.cons_append]) hfl p
        (List.mem_cons_of_mem _ hp)
    have hheadNe : ∀ f ∈ rest, f.2.1 = false → f.1.model_id = r.model_id →
        f.1.name ≠ r.name := by
      intro f hf hfl hg
      obtain ⟨pre2, suf2, hsplit⟩ := List.append_of_mem hf
      have hne := hflags ((r, n1, n2) :: pre2) f suf2 (by rw [hsplit, List.cons_append]) hfl
        (r, n1, n2) (List.mem_cons_self _ _) hg.symm
      exact fun he => hne he.symm
    rcases pass2Aux_cons_some hrun with
      ⟨hb, res2, hrest, rfl⟩ | ⟨m, res2, hb, hm, hnum, hrest, rfl⟩ |
      ⟨m, res2, hb, hm, hnum, hrest, rfl⟩
    · -- untouched row
      have hn1 : n1 = false := (Bool.or_eq_false_iff.1 hb).1
      subst hn1
      rw [vCleanAux, hb] at hclean
      simp only [Bool.false_eq_true, if_false] at hclean
      obtain ⟨nd2, fa2⟩ := ih allN asg sm res2 hallTail hflagsTail hclean hrest
      constructor
      · show (nameKeys (r :: res2.rows)).Nodup
        rw [nameKeys_cons]
        refine List.nodup_cons.2 ⟨?_, nd2⟩
        intro hmem
        obtain ⟨o, ho, hkey⟩ := List.mem_map.1 hmem
        have hkn : o.name = r.name := congrArg Prod.fst hkey
        have hkw : o.model_id = r.model_id := congrArg Prod.snd hkey
        obtain ⟨fo, hfo, hog, hcase⟩ := forall₂_mem_right fa2 o ho
        rcases hcase with ⟨hfl, hname_eq⟩ | ⟨hnotAll, _⟩
        · exact hheadNe fo hfo hfl (hog.symm.trans hkw) (hname_eq.symm.trans hkn)
        · exact hnotAll (by rw [hkn, hog.symm.trans hkw]; exact hallHead)
      · exact List.Forall₂.cons ⟨rfl, Or.inl ⟨rfl, rfl⟩⟩ fa2
    · -- numeric-form fix: name becomes the rendering of m + 1
      rw [vCleanAux, hb] at hclean
      simp only [if_true] at hclean
      rw [hm] at hclean
      simp only [] at hclean
      rw [if_pos hnum] at hclean
      have hc1 : toString (m + 1) ∉ allN r.model_id := by
        by_contra hc
        rw [if_pos hc] at hclean
        exact Bool.false_ne_true hclean
      rw [if_neg hc1] at hclean
      have hc2 : toString (m + 1) ∉ asg r.model_id := by
        by_contra hc
        rw [if_pos hc] at hclean
        exact Bool.false_ne_true hclean
      rw [if_neg hc2] at hclean
      obtain ⟨nd2, fa2⟩ := ih allN (addName asg r.model_id (toString (m + 1)))
        (addNum sm r.model_id (m + 1)) res2 hallTail hflagsTail hclean hrest
      constructor
      · show (nameKeys ({ r with number := m + 1, name := toString (m + 1) } :: res2.rows)).Nodup
        rw [nameKeys_cons]
        refine List.nodup_cons.2 ⟨?_, nd2⟩
        show (toString (m + 1), r.model_id) ∉ nameKeys res2.rows
        intro hmem
        obtain ⟨o, ho, hkey⟩ := List.mem_map.1 hmem
        have hkn : o.name = toString (m + 1) := congrArg Prod.fst hkey
        have hkw : o.model_id = r.model_id := congrArg Prod.snd hkey
        obtain ⟨fo, hfo, hog, hcase⟩ := forall₂_mem_right fa2 o ho
        rcases hcase with ⟨_, hname_eq⟩ | ⟨_, hnotAsg⟩
        · apply hc1
          rw [← hkn, hname_eq]
          have := hallTail fo hfo
          rwa [← hog, hkw] at this
        · apply hnotAsg
          rw [hkn, hog.symm.trans hkw]
          exact addKey_self asg r.model_id (toString (m + 1))
      · refine List.Forall₂.cons ⟨rfl, Or.inr ⟨hc1, hc2⟩⟩ ?_
        refine fa2.imp ?_
        intro f o hP
        refine ⟨hP.1, ?_⟩
        rcases hP.2 with hkeep | ⟨hA, hB⟩
        · exact Or.inl hkeep
        · exact Or.inr ⟨hA, fun hc => hB (mem_addKey_of _ _ hc)⟩
    · -- custom-name fix
      rw [vCleanAux, hb] at hclean
      simp only [if_true] at hclean
      rw [hm] at hclean
      simp only [] at hclean
      rw [if_neg hnum] at hclean
      cases n1 with
      | false =>
        -- name kept (number-only collision)
        simp only [Bool.false_eq_true, if_false] at hclean
        obtain ⟨nd2, fa2⟩ := ih allN asg
          (if n2 then addNum sm r.model_id (m + 1) else sm) res2
          hallTail hflagsTail hclean hrest
        constructor
        · show (nameKeys ({ r with
              name := ((none : Option String)).getD r.name,
              number := ((if n2 then some (m + 1) else none) : Option Int).getD r.number } ::
                res2.rows)).Nodup
          rw [nameKeys_cons]
          refine List.nodup_cons.2 ⟨?_, nd2⟩
          show (r.name, r.model_id) ∉ nameKeys res2.rows
          intro hmem
          obtain ⟨o, ho, hkey⟩ := List.mem_map.1 hmem
          have hkn : o.name = r.name := congrArg Prod.fst hkey
          have hkw : o.model_id = r.model_id := congrArg Prod.snd hkey
          obtain ⟨fo, hfo, hog, hcase⟩ := forall₂_mem_right fa2 o ho
          rcases hcase with ⟨hfl, hname_eq⟩ | ⟨hnotAll, _⟩
          · exact hheadNe fo hfo hfl (hog.symm.trans hkw) (hname_eq.symm.trans hkn)
          · exact hnotAll (by rw [hkn, hog.symm.trans hkw]; exact hallHead)
        · exact List.Forall₂.cons ⟨rfl, Or.inl ⟨rfl, rfl⟩⟩ fa2
      | true =>
        -- name becomes the id-suffix form
        simp only [if_true] at hclean
        have hc1 : synthVName r ∉ allN r.model_id := by
          by_contra hc
          rw [if_pos hc] at hclean
          exact Bool.false_ne_true hclean
        rw [if_neg hc1] at hclean
        have hc2 : synthVName r ∉ asg r.model_id := by
          by_contra hc
          rw [if_pos hc] at hclean
          exact Bool.false_ne_true hclean
        rw [if_neg hc2] at hclean
        obtain ⟨nd2, fa2⟩ := ih allN (addName asg r.model_id (synthVName r))
          (if n2 then addNum sm r.model_id (m + 1) else sm) res2
          hallTail hflagsTail hclean hrest
        constructor
        · show (nameKeys ({ r with
              name := ((some (synthVName r) : Option String)).getD r.name,
              number := ((if n2 then some (m + 1) else none) : Option Int).getD r.number } ::
                res2.rows)).Nodup
          rw [nameKeys_cons]
          refine List.nodup_cons.2 ⟨?_, nd2⟩
          show (synthVName r, r.model_id) ∉ nameKeys res2.rows
          intro hmem
          obtain ⟨o, ho, hkey⟩ := List.mem_map.1 hmem
          have hkn : o.name = synthVName r := congrArg Prod.fst hkey
          have hkw : o.model_id = r.model_id := congrArg Prod.snd hkey
          obtain ⟨fo, hfo, hog, hcase⟩ := forall₂_mem_right fa2 o ho
          rcases hcase with ⟨_, hname_eq⟩ | ⟨_, hnotAsg⟩
          · apply hc1
            rw [← hkn, hname_eq]
            have := hallTail fo hfo
            rwa [← hog, hkw] at this
          · apply hnotAsg
            rw [hkn, hog.symm.trans hkw]
            exact addKey_self asg r.model_id (synthVName r)
        · refine List.Forall₂.cons ⟨rfl, Or.inr ⟨hc1, hc2⟩⟩ ?_
          refine fa2.imp ?_
          intro f o hP
          refine ⟨hP.1, ?_⟩
          rcases hP.2 with hkeep | ⟨hA, hB⟩
          · exact Or.inl hkeep
          · exact Or.inr ⟨hA, fun hc => hB (mem_addKey_of _ _ hc)⟩

/-! ## Theorems -/

/-- C1 (counterexample). The claim says that after the simple-entity
resolution the `(name, workspace_id)` pairs are pairwise distinct for
*every* input row multiset.  This fails: the synthesized name is never
re-checked against the seen-set, so here the third row (name `p`, id
starting `abcdef`) is renamed to `p_abcdef`, which the first row already
carries. -/
theorem simple_resolution_unique_fails :
    ¬ (simpleKeys (simpleResolve
        [⟨"x", "p_abcdef", "w"⟩, ⟨"a", "p", "w"⟩, ⟨"abcdefgh", "p", "w"⟩]).rows).Nodup := by
  decide

/-- C1 (amended: uniqueness holds on clean runs). If, for each of the
three simple tables, every name synthesized during the run is absent from
its workspace's seen-set at the moment it is synthesized (the re-check the
code omits — `simpleClean`), then after resolution the
`(name, workspace_id)` pairs of each table are pairwise distinct. -/
theorem simple_resolution_unique_of_clean (runs pipes models : List SimpleRow)
    (h1 : simpleClean runs = true) (h2 : simpleClean pipes = true)
    (h3 : simpleClean models = true) :
    (simpleKeys (simpleResolve runs).rows).Nodup ∧
    (simpleKeys (simpleResolve pipes).rows).Nodup ∧
    (simpleKeys (simpleResolve models).rows).Nodup :=
  ⟨(simpleResolveAux_nodup_of_clean runs emptyNames h1).1,
    (simpleResolveAux_nodup_of_clean pipes emptyNames h2).1,
    (simpleResolveAux_nodup_of_clean models emptyNames h3).1⟩

/-- C1 (witness): `simple_resolution_unique_of_clean` at concrete tables,
two of which contain duplicates that get renamed. -/
theorem simple_resolution_unique_of_clean_witness :
    (simpleClean [⟨"aaa", "p", "w"⟩, ⟨"bbb", "p", "w"⟩] = true ∧
      simpleClean [⟨"c1", "q", "w"⟩, ⟨"c2", "q", "w"⟩] = true ∧
      simpleClean [⟨"d1", "mm", "w"⟩] = true) ∧
    ((simpleKeys (simpleResolve [⟨"aaa", "p", "w"⟩, ⟨"bbb", "p", "w"⟩]).rows).Nodup ∧
      (simpleKeys (simpleResolve [⟨"c1", "q", "w"⟩, ⟨"c2", "q", "w"⟩]).rows).Nodup ∧
      (simpleKeys (simpleResolve [⟨"d1", "mm", "w"⟩]).rows).Nodup) :=
  ⟨⟨by decide, by decide, by decide⟩,
    simple_resolution_unique_of_clean _ _ _ (by decide) (by decide) (by decide)⟩

/-- C2 (counterexample). The claim says both key families are pairwise
distinct for every input.  The `(name, model_id)` half fails: with rows
`(v1, "2", 1, m)` and `(v2, "1", 1, m)`, the second row is numeric-form
and gets `number = 2, name = "2"`, colliding with `v1`'s untouched custom
name `"2"`. -/
theorem versioned_resolution_name_unique_fails :
    versionedResolve [⟨"v1", "2", 1, "m"⟩, ⟨"v2", "1", 1, "m"⟩] =
      some ⟨[⟨"v1", "2", 1, "m"⟩, ⟨"v2", "2", 2, "m"⟩],
            [⟨"v2", some "2", some 2⟩], [("1", "2")]⟩ ∧
    ¬ (nameKeys [⟨"v1", "2", 1, "m"⟩, ⟨"v2", "2", 2, "m"⟩]).Nodup := by
  decide

/-- C3 (counterexample). The claim says the earliest row carrying a name
in a scope is never altered.  Here the third row is the earliest (and
only) row whose original name is `p_abcdef` (the two rows before it are
both named `p`), yet it is renamed, because the second row's synthesized
name `p_abcdef` entered the seen-set first. -/
theorem first_seen_wins_fails :
    ((([⟨"a", "p", "w"⟩, ⟨"abcdef", "p", "w"⟩, ⟨"c", "p_abcdef", "w"⟩] :
        List SimpleRow).take 2).all fun r => r.name ≠ "p_abcdef") = true ∧
    (simpleResolve
        [⟨"a", "p", "w"⟩, ⟨"abcdef", "p", "w"⟩, ⟨"c", "p_abcdef", "w"⟩]).rows.get? 2 =
      some ⟨"c", "p_abcdef_c", "w"⟩ ∧
    ¬ ((simpleResolve
        [⟨"a", "p", "w"⟩, ⟨"abcdef", "p", "w"⟩, ⟨"c", "p_abcdef", "w"⟩]).rows.get? 2 =
      some ⟨"c", "p_abcdef", "w"⟩) := by
  decide

/-- C4 (counterexample). The claim says a second run of the full
resolution performs zero updates on every first-run output.  Here the
first run leaves a duplicate (the unchecked synthesized-name collision of
C1), so the second run performs one update, not zero. -/
theorem resolve_idempotent_fails :
    ((resolveAll ⟨[⟨"x", "p_abcdef", "w"⟩, ⟨"a", "p", "w"⟩, ⟨"abcdefgh", "p", "w"⟩],
        [], [], []⟩).bind fun p => (resolveAll p.1).map Prod.snd) ≠ some 0 ∧
    ((resolveAll ⟨[⟨"x", "p_abcdef", "w"⟩, ⟨"a", "p", "w"⟩, ⟨"abcdefgh", "p", "w"⟩],
        [], [], []⟩).bind fun p => (resolveAll p.1).map Prod.snd) = some 1 := by
  decide

/-- C2 (amended: the number half holds unconditionally; the name half
holds on name-clean runs). Whenever the model-version resolution
succeeds, the resulting `(number, model_id)` pairs are pairwise distinct
for every input; and if additionally every name pass 2 assigns (numeric
rendering or id-suffix) is fresh for its model — the re-check the code
omits, `vNamesClean` — then the `(name, model_id)` pairs are pairwise
distinct as well. -/
theorem versioned_resolution_unique (rows : List VersionRow) (res : VersionResult)
    (h : versionedResolve rows = some res) :
    (numKeys res.rows).Nodup ∧
    (vNamesClean rows = true → (nameKeys res.rows).Nodup) := by
  simp only [versionedResolve] at h
  have hmemrows : ∀ f ∈ (pass1Aux emptyNames emptyNums rows).1, f.1 ∈ rows := by
    intro f hf
    rw [← pass1Aux_fst rows emptyNames emptyNums]
    exact List.mem_map_of_mem Prod.fst hf
  have hallNum : ∀ f ∈ (pass1Aux emptyNames emptyNums rows).1,
      f.1.number ∈ (pass1Aux emptyNames emptyNums rows).2.2 f.1.model_id :=
    fun f hf => pass1Aux_nums_all rows emptyNames emptyNums f.1 (hmemrows f hf)
  have hflagsNum : ∀ pre f suf, (pass1Aux emptyNames emptyNums rows).1 = pre ++ f :: suf →
      f.2.2 = false → ∀ p ∈ pre, p.1.model_id = f.1.model_id → p.1.number ≠ f.1.number :=
    fun pre f suf hs hfl => (pass1Aux_flag_num rows emptyNames emptyNums pre f suf hs hfl).2
  refine ⟨(pass2Aux_numkeys_nodup _ _ _ hallNum hflagsNum h).1, fun hcl => ?_⟩
  simp only [vNamesClean] at hcl
  have hallName : ∀ f ∈ (pass1Aux emptyNames emptyNums rows).1,
      f.1.name ∈ (pass1Aux emptyNames emptyNums rows).2.1 f.1.model_id :=
    fun f hf => pass1Aux_names_all rows emptyNames emptyNums f.1 (hmemrows f hf)
  have hflagsName : ∀ pre f suf, (pass1Aux emptyNames emptyNums rows).1 = pre ++ f :: suf →
      f.2.1 = false → ∀ p ∈ pre, p.1.model_id = f.1.model_id → p.1.name ≠ f.1.name :=
    fun pre f suf hs hfl => (pass1Aux_flag_name rows emptyNames emptyNums pre f suf hs hfl).2
  exact (pass2Aux_namekeys_nodup _ _ _ _ _ hallName hflagsName hcl h).1

/-- C2 (witness): `versioned_resolution_unique` at the duplicate
numeric-form pair of spec scenario B, whose run is name-clean. -/
theorem versioned_resolution_unique_witness :
    versionedResolve [⟨"v1", "1", 1, "m"⟩, ⟨"v2", "1", 1, "m"⟩] =
      some ⟨[⟨"v1", "1", 1, "m"⟩, ⟨"v2", "2", 2, "m"⟩],
            [⟨"v2", some "2", some 2⟩], [("1", "2")]⟩ ∧
    vNamesClean [⟨"v1", "1", 1, "m"⟩, ⟨"v2", "1", 1, "m"⟩] = true ∧
    (numKeys [(⟨"v1", "1", 1, "m"⟩ : VersionRow), ⟨"v2", "2", 2, "m"⟩]).Nodup ∧
    (nameKeys [(⟨"v1", "1", 1, "m"⟩ : VersionRow), ⟨"v2", "2", 2, "m"⟩]).Nodup :=
  ⟨by decide, by decide,
    (versioned_resolution_unique [⟨"v1", "1", 1, "m"⟩, ⟨"v2", "1", 1, "m"⟩]
      ⟨[⟨"v1", "1", 1, "m"⟩, ⟨"v2", "2", 2, "m"⟩],
        [⟨"v2", some "2", some 2⟩], [("1", "2")]⟩ (by decide)).1,
    (versioned_resolution_unique [⟨"v1", "1", 1, "m"⟩, ⟨"v2", "1", 1, "m"⟩]
      ⟨[⟨"v1", "1", 1, "m"⟩, ⟨"v2", "2", 2, "m"⟩],
        [⟨"v2", some "2", some 2⟩], [("1", "2")]⟩ (by decide)).2 (by decide)⟩

/-- C3 (amended: first-seen-wins holds provided no input row's name
coincides with a synthesized name). If no row of the table carries a name
that the run synthesizes, then any row preceded only by rows with
different `(name, workspace_id)` keys — in particular the earliest row
carrying its name in its workspace — is emitted unchanged at its position;
contrapositively, only rows with an earlier duplicate are renamed. -/
theorem first_seen_wins_of_no_synth_clash (rows pre post : List SimpleRow)
    (r : SimpleRow) (hsplit : rows = pre ++ r :: post)
    (hsyn : ∀ x ∈ rows, x.name ∉ (simpleResolve rows).updates.map SimpleUpdate.name)
    (hpre : ∀ p ∈ pre, ¬(p.name = r.name ∧ p.workspace_id = r.workspace_id)) :
    (simpleResolve rows).rows.get? pre.length = some r := by
  subst hsplit
  exact simpleResolveAux_first_seen pre r post emptyNames (by simp [emptyNames]) hpre
    (hsyn r (by simp))

/-- C3 (witness): `first_seen_wins_of_no_synth_clash` at a concrete table
with a duplicate: the first of the two `p` rows is kept unchanged. -/
theorem first_seen_wins_witness :
    ([⟨"aaa", "p", "w"⟩, ⟨"bbb", "p", "w"⟩] =
        ([] : List SimpleRow) ++ (⟨"aaa", "p", "w"⟩ : SimpleRow) :: [⟨"bbb", "p", "w"⟩]) ∧
    (∀ x ∈ [(⟨"aaa", "p", "w"⟩ : SimpleRow), ⟨"bbb", "p", "w"⟩],
      x.name ∉ (simpleResolve [⟨"aaa", "p", "w"⟩, ⟨"bbb", "p", "w"⟩]).updates.map
        SimpleUpdate.name) ∧
    (simpleResolve [⟨"aaa", "p", "w"⟩, ⟨"bbb", "p", "w"⟩]).rows.get?
        ([] : List SimpleRow).length = some ⟨"aaa", "p", "w"⟩ :=
  ⟨by decide, by decide,
    first_seen_wins_of_no_synth_clash [⟨"aaa", "p", "w"⟩, ⟨"bbb", "p", "w"⟩] []
      [⟨"bbb", "p", "w"⟩] ⟨"aaa", "p", "w"⟩ (by decide) (by decide) (by decide)⟩

/-- C4 (amended: idempotence holds exactly when the first run's output is
duplicate-free, which the unchecked synthesized-name collision can
violate). If the full resolution ran once and its output satisfies the
five uniqueness invariants, running it again performs zero row updates and
changes nothing. -/
theorem resolve_idempotent_of_unique (db : DB) (p : DB × Nat)
    (_hfirst : resolveAll db = some p) (huniq : uniqueDB p.1) :
    resolveAll p.1 = some (p.1, 0) := by
  obtain ⟨u1, u2, u3, u4, u5⟩ := huniq
  have e1 : simpleResolve p.1.pipeline_run = ⟨p.1.pipeline_run, [], []⟩ :=
    simpleResolveAux_noop _ _ (by intro r _; simp [emptyNames]) u1
  have e2 : simpleResolve p.1.pipeline = ⟨p.1.pipeline, [], []⟩ :=
    simpleResolveAux_noop _ _ (by intro r _; simp [emptyNames]) u2
  have e3 : simpleResolve p.1.model = ⟨p.1.model, [], []⟩ :=
    simpleResolveAux_noop _ _ (by intro r _; simp [emptyNames]) u3
  have e4 : versionedResolve p.1.model_version = some ⟨p.1.model_version, [], []⟩ :=
    versionedResolve_noop _ u4 u5
  simp [resolveAll, e1, e2, e3, e4]

/-- C4 (witness): `resolve_idempotent_of_unique` at a database whose first
run renames one pipeline row and reaches a duplicate-free state. -/
theorem resolve_idempotent_of_unique_witness :
    resolveAll ⟨[], [⟨"aaa", "p", "w"⟩, ⟨"bbb", "p", "w"⟩], [], [⟨"v1", "1", 1, "m"⟩]⟩ =
      some (⟨[], [⟨"aaa", "p", "w"⟩, ⟨"bbb", "p_bbb", "w"⟩], [], [⟨"v1", "1", 1, "m"⟩]⟩, 1) ∧
    uniqueDB ⟨[], [⟨"aaa", "p", "w"⟩, ⟨"bbb", "p_bbb", "w"⟩], [], [⟨"v1", "1", 1, "m"⟩]⟩ ∧
    resolveAll ⟨[], [⟨"aaa", "p", "w"⟩, ⟨"bbb", "p_bbb", "w"⟩], [], [⟨"v1", "1", 1, "m"⟩]⟩ =
      some (⟨[], [⟨"aaa", "p", "w"⟩, ⟨"bbb", "p_bbb", "w"⟩], [], [⟨"v1", "1", 1, "m"⟩]⟩, 0) :=
  ⟨by decide, by decide,
    resolve_idempotent_of_unique
      ⟨[], [⟨"aaa", "p", "w"⟩, ⟨"bbb", "p", "w"⟩], [], [⟨"v1", "1", 1, "m"⟩]⟩
      (⟨[], [⟨"aaa", "p", "w"⟩, ⟨"bbb", "p_bbb", "w"⟩], [], [⟨"v1", "1", 1, "m"⟩]⟩, 1)
      (by decide) (by decide)⟩

/-- C5. In pass 2, a staged numeric-form row (`str(number) == name`) has
both fields reassigned together regardless of which flag triggered the
fix: the fresh `m + 1` (with `m` the max of the model's seen-number set)
becomes the number, its decimal rendering becomes the name, and `m + 1`
joins the seen-number set used for the remaining staged rows. -/
theorem numeric_form_reassigns_both (sm : String → List Int) (r : VersionRow)
    (n1 n2 : Bool) (rest : List (VersionRow × Bool × Bool)) (m : Int)
    (hstaged : (n1 || n2) = true) (hform : toString r.number = r.name)
    (hmax : listMax (sm r.model_id) = some m) :
    pass2Aux sm ((r, n1, n2) :: rest) =
      (pass2Aux (addNum sm r.model_id (m + 1)) rest).map fun res =>
        ⟨{ r with number := m + 1, name := toString (m + 1) } :: res.rows,
          ⟨r.id, some (toString (m + 1)), some (m + 1)⟩ :: res.updates,
          (r.name, toString (m + 1)) :: res.logs⟩ := by
  simp [pass2Aux, hstaged, hmax, hform]

/-- C5 (witness): the hypotheses and the conclusion of
`numeric_form_reassigns_both` evaluated at a concrete staged row. -/
theorem numeric_form_reassigns_both_witness :
    ((true || true : Bool) = true ∧
      toString (⟨"v2", "1", 1, "m"⟩ : VersionRow).number = "1" ∧
      listMax (addNum emptyNums "m" 1 (⟨"v2", "1", 1, "m"⟩ : VersionRow).model_id) = some 1) ∧
    pass2Aux (addNum emptyNums "m" 1) [(⟨"v2", "1", 1, "m"⟩, true, true)] =
      some ⟨[⟨"v2", "2", 2, "m"⟩], [⟨"v2", some "2", some 2⟩], [("1", "2")]⟩ :=
  ⟨⟨by decide, by decide, by decide⟩,
    (numeric_form_reassigns_both (addNum emptyNums "m" 1) ⟨"v2", "1", 1, "m"⟩
      true true [] 1 (by decide) (by decide) (by decide)).trans (by decide)⟩

/-- C6. In pass 2, a staged row with a non-numeric-form name that collides
only on number (`needs_new_number` true, `needs_new_name` false) keeps its
name — the executed update carries no name value — and its number is
reassigned to the fresh `m + 1`, which joins the seen-number set. -/
theorem number_only_keeps_name (sm : String → List Int) (r : VersionRow)
    (rest : List (VersionRow × Bool × Bool)) (m : Int)
    (hform : ¬ (toString r.number = r.name))
    (hmax : listMax (sm r.model_id) = some m) :
    pass2Aux sm ((r, false, true) :: rest) =
      (pass2Aux (addNum sm r.model_id (m + 1)) rest).map fun res =>
        ⟨{ r with number := m + 1 } :: res.rows,
          ⟨r.id, none, some (m + 1)⟩ :: res.updates, res.logs⟩ := by
  simp [pass2Aux, hmax, hform]

/-- C6 (witness): the hypotheses and the conclusion of
`number_only_keeps_name` evaluated at a concrete staged row. -/
theorem number_only_keeps_name_witness :
    (¬ (toString (⟨"v2", "beta", 1, "m"⟩ : VersionRow).number = "beta") ∧
      listMax (addNum emptyNums "m" 1 (⟨"v2", "beta", 1, "m"⟩ : VersionRow).model_id) = some 1) ∧
    pass2Aux (addNum emptyNums "m" 1) [(⟨"v2", "beta", 1, "m"⟩, false, true)] =
      some ⟨[⟨"v2", "beta", 2, "m"⟩], [⟨"v2", none, some 2⟩], []⟩ :=
  ⟨⟨by decide, by decide⟩,
    (number_only_keeps_name (addNum emptyNums "m" 1) ⟨"v2", "beta", 1, "m"⟩
      [] 1 (by decide) (by decide)).trans (by decide)⟩

/-- C7 (counterexample). The claim says every staged row update emits
exactly one warning, including the custom-name number-only case.  Here the
second row (custom name `beta`, duplicate number) is renumbered by an
update statement, but the log list stays empty: that branch of the code
has no `logger.warning` call. -/
theorem log_per_update_fails :
    versionedResolve [⟨"v1", "alpha", 1, "m"⟩, ⟨"v2", "beta", 1, "m"⟩] =
      some ⟨[⟨"v1", "alpha", 1, "m"⟩, ⟨"v2", "beta", 2, "m"⟩],
            [⟨"v2", none, some 2⟩], []⟩ := by
  decide

/-- C7 (amended: the number-only case logs nothing). Every fix-up that
assigns a name emits exactly one warning recording the old and new name:
in the simple resolver the log lines correspond one-to-one to the updates
(same new names, same count), and in versioned pass 2 the log lines are
exactly the name components of the name-assigning updates — so the
custom-name number-only fix-up, contrary to the original claim, emits no
log line at all. -/
theorem log_per_name_update (rows : List SimpleRow) (vrows : List VersionRow)
    (res : VersionResult) (h : versionedResolve vrows = some res) :
    (simpleResolve rows).logs.map Prod.snd =
        (simpleResolve rows).updates.map SimpleUpdate.name ∧
    (simpleResolve rows).logs.length = (simpleResolve rows).updates.length ∧
    res.logs.map Prod.snd = res.updates.filterMap VersionUpdate.name := by
  refine ⟨simpleResolveAux_logs_updates rows emptyNames, ?_, ?_⟩
  · have h2 := congrArg List.length (simpleResolveAux_logs_updates rows emptyNames)
    simpa using h2
  · simp only [versionedResolve] at h
    exact pass2Aux_logs_updates _ _ _ h

/-- C7 (witness): `log_per_name_update` instantiated at concrete tables,
the versioned one containing a custom-name number-only collision. -/
theorem log_per_name_update_witness :
    versionedResolve [⟨"w1", "alpha", 1, "g"⟩, ⟨"w2", "gamma", 1, "g"⟩] =
      some ⟨[⟨"w1", "alpha", 1, "g"⟩, ⟨"w2", "gamma", 2, "g"⟩],
            [⟨"w2", none, some 2⟩], []⟩ ∧
    ((simpleResolve [⟨"r1", "x", "w"⟩, ⟨"r2", "x", "w"⟩]).logs.map Prod.snd =
        (simpleResolve [⟨"r1", "x", "w"⟩, ⟨"r2", "x", "w"⟩]).updates.map SimpleUpdate.name ∧
      (simpleResolve [⟨"r1", "x", "w"⟩, ⟨"r2", "x", "w"⟩]).logs.length =
        (simpleResolve [⟨"r1", "x", "w"⟩, ⟨"r2", "x", "w"⟩]).updates.length ∧
      (⟨[⟨"w1", "alpha", 1, "g"⟩, ⟨"w2", "gamma", 2, "g"⟩],
          [⟨"w2", none, some 2⟩], []⟩ : VersionResult).logs.map Prod.snd =
        (⟨[⟨"w1", "alpha", 1, "g"⟩, ⟨"w2", "gamma", 2, "g"⟩],
          [⟨"w2", none, some 2⟩], []⟩ : VersionResult).updates.filterMap VersionUpdate.name) :=
  ⟨by decide,
    log_per_name_update [⟨"r1", "x", "w"⟩, ⟨"r2", "x", "w"⟩]
      [⟨"w1", "alpha", 1, "g"⟩, ⟨"w2", "gamma", 1, "g"⟩]
      ⟨[⟨"w1", "alpha", 1, "g"⟩, ⟨"w2", "gamma", 2, "g"⟩],
        [⟨"w2", none, some 2⟩], []⟩ (by decide)⟩

/-- C8 (counterexample). The claim says the forward path adds four
uniqueness constraints; the code adds five (three simple-table name
constraints plus two model-version constraints). -/
theorem upgrade_four_constraints_fails :
    ¬ ((addsOf upgradeOps).length = 4) := by
  decide

/-- C8 (amended: five constraints, not four). The forward path adds the
five uniqueness constraints — `(name, workspace_id)` on `pipeline`,
`pipeline_run` and `model`, and `(name, model_id)` plus
`(number, model_id)` on `model_version` — and no constraint is added
before the duplicate resolution step has run. -/
theorem upgrade_five_constraints_after_resolve :
    addsOf upgradeOps =
      [("pipeline", "unique_pipeline_name_in_workspace", ["name", "workspace_id"]),
       ("pipeline_run", "unique_run_name_in_workspace", ["name", "workspace_id"]),
       ("model", "unique_model_name_in_workspace", ["name", "workspace_id"]),
       ("model_version", "unique_version_for_model_id", ["name", "model_id"]),
       ("model_version", "unique_version_number_for_model_id", ["number", "model_id"])] ∧
    ((upgradeOps.takeWhile fun o => !o.isResolve).all fun o => !o.isAdd) = true ∧
    MigOp.resolveDuplicates ∈ upgradeOps := by
  decide

/-- C9. The backward path drops exactly the constraints the forward path
creates, in reverse creation order, and leaves every table row untouched:
the database part of the state after `downgrade` equals the one before, so
forward renames are never restored. -/
theorem downgrade_reverse_drop_preserves_rows :
    (dropsOf downgradeOps = ((addsOf upgradeOps).map fun a => (a.1, a.2.1)).reverse) ∧
    ∀ st st2, downgrade st = some st2 → st2.db = st.db := by
  refine ⟨by decide, fun st st2 h => ?_⟩
  simp only [downgrade, downgradeOps, runOps, applyOp, Option.bind] at h
  cases h
  rfl

/-- C9 (witness): `downgrade` applied to a concrete state, with the
row-preservation conclusion obtained from
`downgrade_reverse_drop_preserves_rows`. -/
theorem downgrade_preserves_rows_witness :
    downgrade ⟨⟨[⟨"a", "p", "w"⟩], [], [], []⟩,
        [("pipeline", "unique_pipeline_name_in_workspace", ["name", "workspace_id"])]⟩ =
      some ⟨⟨[⟨"a", "p", "w"⟩], [], [], []⟩, []⟩ ∧
    (⟨⟨[⟨"a", "p", "w"⟩], [], [], []⟩, []⟩ : MigState).db =
      (⟨⟨[⟨"a", "p", "w"⟩], [], [], []⟩,
        [("pipeline", "unique_pipeline_name_in_workspace", ["name", "workspace_id"])]⟩ :
          MigState).db :=
  ⟨by decide, downgrade_reverse_drop_preserves_rows.2 _ _ (by decide)⟩

/-- C10. For every input table the model-version resolution succeeds:
whenever pass 2 takes `max(existing_numbers[model_id])`, pass 1 has
already put that staged row's own number into the set, so the set is
non-empty and the empty-`max` error branch of the embedding is never
taken. -/
theorem versioned_resolve_total (rows : List VersionRow) :
    (versionedResolve rows).isSome = true := by
  simp only [versionedResolve]
  apply pass2Aux_isSome
  intro f hf
  have h1 : f.1 ∈ rows := by
    rw [← pass1Aux_fst rows emptyNames emptyNums]
    exact List.mem_map_of_mem Prod.fst hf
  exact pass1Aux_nums_all rows emptyNames emptyNums f.1 h1

end ZenMigration
